import Mathlib

/-!
Verification of `django-gitversions` (management commands `gitversions` and
`gitrestore`) against its natural-language specification.

The Python source is shallowly embedded below.  External collaborators
(the Django app registry, the serializer, the database) are modelled as
oracle functions supplied as parameters; everything the repository's own
code does — the fixed-point topological sort `sort_dependencies`, the
recursive `save_all` retry, the outer ingest loops of
`Command.handle` in `gitrestore.py` (including Python's skip-on-remove
iteration behaviour of `loaddata`), and the option validation of the dump
command — is translated directly from the source.
-/

namespace DjangoGitversions

/-- A Django model class, identified by its app label (`_meta.app_label`)
and its class name (for a Django model, `cls.__name__` and
`_meta.object_name` coincide, so one field serves both). -/
structure Model where
  appLabel : String
  name : String
deriving DecidableEq

/-- Static description of one model exactly as `sort_dependencies`
(gitversions.py lines 183-211) inspects it: `declaredDeps` is
`model.natural_key.dependencies` (resolved to model classes, empty when
the attribute is absent), `fieldRelTargets` lists `field.rel.to` for each
entry of `model._meta.fields` (`none` when the field has no `rel.to`),
and `m2mTargets` lists `field.rel.to` for `model._meta.many_to_many`. -/
structure ModelDesc where
  self : Model
  declaredDeps : List Model
  fieldRelTargets : List (Option Model)
  m2mTargets : List Model
deriving DecidableEq

/-- The per-model dependency list built by the first phase of
`sort_dependencies`: declared natural-key dependencies are used only when
the model has a `natural_key` (the `hasattr` test, oracle `nk`); a
relation target is added when it has a natural key and is not the model
itself.  Note that the source does NOT filter the model itself out of the
declared dependencies, only out of the relation-derived ones. -/
def buildModelDeps (nk : Model → Bool) (d : ModelDesc) : List Model :=
  (if nk d.self then d.declaredDeps else []) ++
    (d.fieldRelTargets.filterMap fun ot =>
      ot.bind fun t => if nk t && decide (t ≠ d.self) then some t else none) ++
    (d.m2mTargets.filterMap fun t =>
      if nk t && decide (t ≠ d.self) then some t else none)

/-- One dependency is satisfied for promotion purposes:
`d not in models or d in model_list` (gitversions.py line 234). -/
def depOk (models model_list : List Model) (d : Model) : Bool :=
  !(decide (d ∈ models)) || decide (d ∈ model_list)

/-- One full inner scan of `sort_dependencies` (lines 226-241).  The
source pops pairs from the end of `model_dependencies`; callers therefore
pass the list already reversed into processing order.  Returns the models
promoted during the scan (in promotion order; `changed` in the source is
exactly "this list is nonempty") and the skipped pairs (in processing
order). -/
def innerScan (models model_list : List Model) :
    List (Model × List Model) → List Model × List (Model × List Model)
  | [] => ([], [])
  | (m, deps) :: rest =>
    if deps.all (depOk models model_list) then
      let r := innerScan models (model_list ++ [m]) rest
      (m :: r.1, r.2)
    else
      let r := innerScan models model_list rest
      (r.1, (m, deps) :: r.2)

/-- Lexicographic comparison of character lists by code point — the
ordering Python's `sorted` applies to `str` keys. -/
def charListLt : List Char → List Char → Bool
  | _, [] => false
  | [], _ :: _ => true
  | a :: as, b :: bs =>
    if a.toNat < b.toNat then true
    else if b.toNat < a.toNat then false
    else charListLt as bs

/-- `a < b` on strings by code point (Python's `str` ordering). -/
def nameLt (a b : String) : Bool := charListLt a.data b.data

/-- Stable insertion of a pair into a list sorted by model class name,
mirroring Python's stable `sorted(..., key=lambda obj: obj[0].__name__)`. -/
def insertByName (p : Model × List Model) :
    List (Model × List Model) → List (Model × List Model)
  | [] => [p]
  | q :: rest =>
    if nameLt p.1.name q.1.name then p :: q :: rest else q :: insertByName p rest

/-- Stable sort by model class name (Python `sorted` key `__name__`). -/
def sortByName : List (Model × List Model) → List (Model × List Model)
  | [] => []
  | p :: rest => insertByName p (sortByName rest)

/-- The `CommandError` message raised on a stuck pass
(gitversions.py lines 243-246). -/
def cycleError (skipped : List (Model × List Model)) : String :=
  "Can\x27t resolve dependencies for " ++
    String.intercalate ", "
      ((sortByName skipped).map fun p => p.1.appLabel ++ "." ++ p.1.name) ++
    " in serialized app list."

/-- The outer fixed-point loop of `sort_dependencies` (lines 222-247).
`md` is `model_dependencies` in stack form (the source pops from the end,
so each pass processes `md.reverse`); `model_list` is the accumulated
output.  A pass that promotes nothing while pairs remain raises the
cycle `CommandError`. -/
def outerLoop (models : List Model) (md : List (Model × List Model))
    (model_list : List Model) : Except String (List Model) :=
  if h1 : md.isEmpty then .ok model_list
  else
    let r := innerScan models model_list md.reverse
    if h2 : r.1.isEmpty then .error (cycleError r.2)
    else outerLoop models r.2 (model_list ++ r.1)
termination_by md.length
decreasing_by
  have key : ∀ (l : List (Model × List Model)) (ml : List Model),
      (innerScan models ml l).1.length + (innerScan models ml l).2.length
        = l.length := by
    intro l
    induction l with
    | nil => intro ml; simp [innerScan]
    | cons p rest ih =>
      intro ml
      obtain ⟨m, deps⟩ := p
      by_cases h : deps.all (depOk models ml) = true
      · simp only [innerScan, h, if_pos]
        have := ih (ml ++ [m])
        simp [List.length_cons]
        omega
      · simp only [innerScan, h, if_neg, Bool.not_eq_true]
        have := ih ml
        simp [List.length_cons]
        omega
  have hk := key md.reverse model_list
  have hne : (innerScan models model_list md.reverse).1.length ≠ 0 := by
    intro h0
    exact h2 (List.isEmpty_iff.mpr (List.eq_nil_of_length_eq_zero h0))
  simp only [List.length_reverse] at hk
  omega

/-- `sort_dependencies(app_list.items())` (gitversions.py lines 177-249),
with the flattened list of models already extracted from the app list.
Phase one builds `models` and `model_dependencies` in input order; the
source then calls `model_dependencies.reverse()` and pops from the end,
which `outerLoop` reproduces by scanning `md.reverse`. -/
def sort_dependencies (nk : Model → Bool) (descs : List ModelDesc) :
    Except String (List Model) :=
  let models := descs.map ModelDesc.self
  let model_dependencies := descs.map fun d => (d.self, buildModelDeps nk d)
  outerLoop models model_dependencies.reverse []

/-- Acyclicity of the dependency graph restricted to the input set:
there is a topological ranking in which every in-set dependency ranks
strictly below its dependent.  Dependencies pointing outside the input
set are unconstrained, matching the spec's rule that external
dependencies are treated as already satisfied. -/
def Acyclic (pairs : List (Model × List Model)) : Prop :=
  ∃ rank : Model → Nat, ∀ p ∈ pairs, ∀ d ∈ p.2,
    d ∈ pairs.map Prod.fst → rank d < rank p.1

/-- Every promoted model's in-set dependencies were promoted before it:
for each pair of `orig` whose model is already in `ml`, every dependency
inside `models` occurs in `ml` before the model. -/
def Ordered (orig : List (Model × List Model)) (models ml : List Model) : Prop :=
  ∀ p ∈ orig, p.1 ∈ ml → ∀ d ∈ p.2, d ∈ models → List.Sublist [d, p.1] ml

/- ### gitrestore.py: `save_all` -/

/-- Outcome of one `obj.save(using=using)` call against the store
(the external database), per retry round. -/
inductive SaveResult where
  | ok
  | dbError (msg : String)
deriving DecidableEq

/-- One deserialized object as `save_all` sees it: the owning model's
app label and object name, and the instance's primary key (as rendered
by `%s`). -/
structure SavedObj where
  appLabel : String
  objectName : String
  pk : String
deriving DecidableEq

/-- The enriched error message assigned to `e.args`
(gitrestore.py lines 61-66). -/
def errMsg (o : SavedObj) (cause : String) : String :=
  "Could not load " ++ o.appLabel ++ "." ++ o.objectName ++
    "(pk=" ++ o.pk ++ "): " ++ cause

/-- Result of one `save_all` pass: the objects on which a save was
attempted (the `router.allow_migrate_model` test passed), and the
`skiped` list of objects whose save failed with a `DatabaseError` or
`IntegrityError`, paired with the enriched message written onto the
exception.  Objects rejected by the router appear in neither list. -/
structure PassResult where
  attempted : List SavedObj
  skiped : List (SavedObj × String)
deriving DecidableEq

/-- The body of `save_all`'s `for obj in objects` loop
(gitrestore.py lines 56-68).  `allow` is
`router.allow_migrate_model(using, ...)`; `save` is the store oracle,
keyed by the retry round so that the evolving database state across
rounds is expressible. -/
def save_all_pass (allow : SavedObj → Bool) (save : Nat → SavedObj → SaveResult)
    (iterations : Nat) : List SavedObj → PassResult
  | [] => ⟨[], []⟩
  | o :: rest =>
    let r := save_all_pass allow save iterations rest
    if allow o then
      match save iterations o with
      | .ok => ⟨o :: r.attempted, r.skiped⟩
      | .dbError msg => ⟨o :: r.attempted, (o, errMsg o msg) :: r.skiped⟩
    else r

/-- `save_all(objects, using, iterations=0)` (gitrestore.py lines 48-73):
returns immediately when the object list is empty or the iteration
counter has reached the cap of 25; otherwise runs one pass and recurses
on the skipped objects with `iterations + 1` when any save failed. -/
def save_all (allow : SavedObj → Bool) (save : Nat → SavedObj → SaveResult)
    (objects : List SavedObj) (iterations : Nat) : Nat :=
  if h : objects.length = 0 ∨ 25 ≤ iterations then iterations
  else
    let skiped := (save_all_pass allow save iterations objects).skiped
    if 0 < skiped.length then
      save_all allow save (skiped.map Prod.fst) (iterations + 1)
    else iterations
termination_by 25 - iterations
decreasing_by
  push_neg at h
  omega

/- ### gitrestore.py: `Command.loaddata` and `Command.handle` -/

/-- Outcome of opening and deserializing one fixture file, as the
`try/except` ladder of `loaddata` (gitrestore.py lines 203-229)
distinguishes them. -/
inductive DecodeOutcome where
  | ok (records : List SavedObj)
  | missingModel (msg : String)
  | missingFk (records : List SavedObj)
  | otherDeser (msg : String)
  | otherExc (msg : String)
deriving DecidableEq

/-- Accumulators of one `loaddata` call (paths processed, paths skipped,
objects loaded, objects appended to `missing_fks`). -/
structure LoadResult where
  processed : List String
  skiped : List String
  objects : List SavedObj
  missingFks : List SavedObj
deriving DecidableEq

/-- Python's list iteration with `fixture_labels.remove(path)` executed
in every branch of the body: removing the current element shifts the
list, so the iterator visits the elements at the original even positions
and leaves the elements at odd positions in the list.  `splitAlt l`
returns (visited elements, elements left in the list). -/
def splitAlt {α : Type} : List α → List α × List α
  | [] => ([], [])
  | x :: xs => (x :: (splitAlt xs).2, (splitAlt xs).1)

/-- Classification of the fixtures actually visited by one `loaddata`
call (gitrestore.py lines 196-229): a cleanly deserialized fixture is
`processed` and contributes its objects; a `DeserializationError`
mentioning an invalid model or a missing foreign-key target puts the path
in `skiped` (the latter also appends the partially decoded objects to
`missing_fks`); any other exception drops the path entirely, it reaches
no output list. -/
def loaddata_pass (decode : String → DecodeOutcome) : List String → LoadResult
  | [] => ⟨[], [], [], []⟩
  | u :: rest =>
    let r := loaddata_pass decode rest
    match decode u with
    | .ok recs => ⟨u :: r.processed, r.skiped, recs ++ r.objects, r.missingFks⟩
    | .missingModel _ => ⟨r.processed, u :: r.skiped, r.objects, r.missingFks⟩
    | .missingFk recs => ⟨r.processed, u :: r.skiped, r.objects, recs ++ r.missingFks⟩
    | .otherDeser _ => ⟨r.processed, u :: r.skiped, r.objects, r.missingFks⟩
    | .otherExc _ => r

/-- The mutable state of `Command.handle` in gitrestore.py.
`missingFks = none` models the `missing_fks` name never having been
assigned (it is only assigned inside the loop body); `hookConnected`
records whether the `gitversion` `post_save` receiver is currently
connected. -/
structure HState where
  unloaded : List String
  processed : List String
  skiped : List String
  reallySkiped : List String
  objects : List SavedObj
  missingFks : Option (List SavedObj)
  i : Nat
  hookConnected : Bool
deriving DecidableEq

/-- The first `while len(unloaded) > 0` loop (gitrestore.py lines
119-131), fuelled.  `decode` and `tme` are oracles keyed by the pass
counter `i`; `tme i = true` means the `with` block of pass `i` raised
`TransactionManagementError` on exit, after the assignments of lines
123-127 had already run — the `except` branch then re-queues the
processed paths (`unloaded += _processed`).  `i += 1` (line 131) runs in
both cases.  Note the loop has no progress check: it runs for as long as
`unloaded` is nonempty (and fuel remains). -/
def restore_loop (decode : Nat → String → DecodeOutcome) (tme : Nat → Bool) :
    Nat → HState → HState
  | 0, s => s
  | fuel + 1, s =>
    if s.unloaded.isEmpty then s
    else
      let es := splitAlt s.unloaded
      let r := loaddata_pass (decode s.i) es.1
      if tme s.i then
        restore_loop decode tme fuel
          { s with unloaded := es.2 ++ r.processed,
                   processed := s.processed ++ r.processed,
                   skiped := s.skiped ++ r.skiped,
                   objects := s.objects ++ r.objects,
                   missingFks := some r.missingFks,
                   i := s.i + 1 }
      else
        restore_loop decode tme fuel
          { s with unloaded := es.2,
                   processed := s.processed ++ r.processed,
                   skiped := s.skiped ++ r.skiped,
                   objects := s.objects ++ r.objects,
                   missingFks := some r.missingFks,
                   i := s.i + 1 }

/-- The second `while len(skiped) > 0` loop (gitrestore.py lines
138-148), fuelled.  It has no `try/except`, so a
`TransactionManagementError` (before `i += 1` runs) escapes `handle`;
the returned flag is `true` when that happened. -/
def restore_retry_loop (decode : Nat → String → DecodeOutcome) (tme : Nat → Bool) :
    Nat → HState → HState × Bool
  | 0, s => (s, false)
  | fuel + 1, s =>
    if s.skiped.isEmpty then (s, false)
    else
      let es := splitAlt s.skiped
      let r := loaddata_pass (decode s.i) es.1
      let s1 := { s with skiped := es.2,
                         processed := s.processed ++ r.processed,
                         reallySkiped := s.reallySkiped ++ r.skiped,
                         objects := s.objects ++ r.objects,
                         missingFks := some r.missingFks }
      if tme s.i then (s1, true)
      else restore_retry_loop decode tme fuel { s1 with i := s.i + 1 }

/-- How an embedded `handle` run ends: `nameError` models the `NameError`
raised at line 134 when `missing_fks` was never assigned (empty batch);
`tme` a `TransactionManagementError` escaping the second loop;
`outOfFuel` an execution that was still looping when the fuel ran out
(not an exit path of the source). -/
inductive HandleError where
  | nameError
  | tme
  | outOfFuel
deriving DecidableEq

/-- `Command.handle` of gitrestore.py (lines 92-163): disconnect the
`gitversion` post-save receiver, run the ingest loop, call `save_all` on
`missing_fks` and on `objects`, re-run `loaddata` over the skipped
fixtures, call `save_all` again, and only then reconnect the receiver.
The reconnection (line 163) is straight-line code, not a `finally`:
every error exit leaves the hook disconnected. -/
def gitrestore_handle (decode : Nat → String → DecodeOutcome) (tme : Nat → Bool)
    (allow : SavedObj → Bool) (save : Nat → SavedObj → SaveResult)
    (fuel : Nat) (batch : List String) : HState × Option HandleError :=
  let s0 : HState :=
    { unloaded := batch, processed := [], skiped := [], reallySkiped := [],
      objects := [], missingFks := none, i := 0, hookConnected := false }
  let s1 := restore_loop decode tme fuel s0
  if ¬ s1.unloaded.isEmpty then (s1, some .outOfFuel)
  else
    match s1.missingFks with
    | none => (s1, some .nameError)
    | some mf =>
      let _iters0 := save_all allow save mf 0
      let iters1 := save_all allow save s1.objects 0
      let r2 := restore_retry_loop decode tme fuel s1
      if r2.2 then (r2.1, some .tme)
      else if ¬ r2.1.skiped.isEmpty then (r2.1, some .outOfFuel)
      else
        let _iters2 := save_all allow save r2.1.objects iters1
        ({ r2.1 with hookConnected := true }, none)

/- ### gitversions.py: `Command.handle` (dump command) -/

/-- A Django `AppConfig` as the dump command consults it:
`hasModelsModule` is `models_module is not None`, `appModels` is
`get_models()`. -/
structure AppConfig where
  label : String
  hasModelsModule : Bool
  appModels : List Model
deriving DecidableEq

/-- The external registry and serializer environment of the dump
command: `apps.get_app_configs()`, the registered public serializer
formats, `apps.get_app_config`, `apps.get_model` (dotted label),
`app_config.get_model`, the `natural_key` attribute test and the static
description of each model used by `sort_dependencies`. -/
structure DumpEnv where
  appConfigs : List AppConfig
  publicFormats : List String
  getAppConfig : String → Option AppConfig
  getModelByLabel : String → Option Model
  configGetModel : AppConfig → String → Option Model
  nk : Model → Bool
  descOf : Model → ModelDesc

/-- The `CommandError`s the dump command can raise before dumping. -/
inductive CmdErr where
  | unknownExcludeModel (s : String)
  | unknownExcludeApp (s : String)
  | pksOneModel
  | unknownApp (s : String)
  | unknownModel (appLabel modelLabel : String)
  | unknownFormat (s : String)
  | cycle (msg : String)
deriving DecidableEq

/-- `primary_keys = pks.split(',') if pks else []`
(gitversions.py lines 59-64; an absent or empty string option yields the
empty list). -/
def primaryKeysOf (pks : Option String) : List String :=
  match pks with
  | some s => if s = "" then [] else s.splitOn ","
  | none => []

/-- The excludes loop (gitversions.py lines 66-81): a dotted exclude must
resolve to a model, an undotted one to an app config, else a
`CommandError` is raised immediately. -/
def processExcludes (env : DumpEnv) :
    List String → Except CmdErr (List AppConfig × List Model)
  | [] => .ok ([], [])
  | e :: rest =>
    if e.contains '.' then
      match env.getModelByLabel e with
      | none => .error (.unknownExcludeModel e)
      | some m =>
        match processExcludes env rest with
        | .error err => .error err
        | .ok r => .ok (r.1, m :: r.2)
    else
      match env.getAppConfig e with
      | none => .error (.unknownExcludeApp e)
      | some ac =>
        match processExcludes env rest with
        | .error err => .error err
        | .ok r => .ok (ac :: r.1, r.2)

/-- Python's `label.split('.')`; the two-element unpack of line 97
succeeds exactly when this has length two. -/
def splitLabel (label : String) : List String := label.splitOn "."

/-- `app_list.setdefault(app_config, [])` followed by appending the model
when the stored value is a list not yet containing it
(gitversions.py lines 111-118). -/
def setdefaultAppend (app_list : List (AppConfig × Option (List Model)))
    (ac : AppConfig) (m : Model) : List (AppConfig × Option (List Model)) :=
  match app_list with
  | [] => [(ac, some [m])]
  | (k, v) :: rest =>
    if k = ac then
      match v with
      | none => (k, none) :: rest
      | some lst => (k, some (if m ∈ lst then lst else lst ++ [m])) :: rest
    else (k, v) :: setdefaultAppend rest ac m

/-- `app_list[app_config] = None` (gitversions.py line 132). -/
def setNone (app_list : List (AppConfig × Option (List Model)))
    (ac : AppConfig) : List (AppConfig × Option (List Model)) :=
  match app_list with
  | [] => [(ac, none)]
  | (k, v) :: rest =>
    if k = ac then (k, none) :: rest else (k, v) :: setNone rest ac

/-- The `for label in app_labels` loop (gitversions.py lines 95-132).
A dotted label resolves app then model (skipping apps without a models
module or excluded apps); an undotted label first re-checks the
primary-key restriction (the `except ValueError` branch, lines 119-122)
and then resolves the app. -/
def buildAppList (env : DumpEnv) (primary_keys : List String)
    (excluded_apps : List AppConfig) :
    List String → List (AppConfig × Option (List Model)) →
    Except CmdErr (List (AppConfig × Option (List Model)))
  | [], acc => .ok acc
  | label :: rest, acc =>
    match splitLabel label with
    | [appLabel, modelLabel] =>
      match env.getAppConfig appLabel with
      | none => .error (.unknownApp appLabel)
      | some ac =>
        if ¬ ac.hasModelsModule ∨ ac ∈ excluded_apps then
          buildAppList env primary_keys excluded_apps rest acc
        else
          match env.configGetModel ac modelLabel with
          | none => .error (.unknownModel appLabel modelLabel)
          | some m =>
            buildAppList env primary_keys excluded_apps rest
              (setdefaultAppend acc ac m)
    | _ =>
      if primary_keys ≠ [] then .error .pksOneModel
      else
        match env.getAppConfig label with
        | none => .error (.unknownApp label)
        | some ac =>
          if ¬ ac.hasModelsModule ∨ ac ∈ excluded_apps then
            buildAppList env primary_keys excluded_apps rest acc
          else buildAppList env primary_keys excluded_apps rest (setNone acc ac)

/-- The app-list construction of `Command.handle` (gitversions.py lines
83-132): with no app labels the `--pks` restriction is checked and then
every app config with a models module that is not excluded is selected
with all its models; with several app labels the `--pks` restriction is
checked before the label loop. -/
def dumpAppList (env : DumpEnv) (app_labels : List String)
    (primary_keys : List String) (excluded_apps : List AppConfig) :
    Except CmdErr (List (AppConfig × Option (List Model))) :=
  if app_labels.length = 0 then
    if primary_keys ≠ [] then .error .pksOneModel
    else .ok
      ((env.appConfigs.filter fun ac =>
          ac.hasModelsModule && !(decide (ac ∈ excluded_apps))).map
        fun ac => (ac, (none : Option (List Model))))
  else if 1 < app_labels.length ∧ primary_keys ≠ [] then
    .error .pksOneModel
  else buildAppList env primary_keys excluded_apps app_labels []

/-- `Command.handle` of gitversions.py (lines 46-174) up to and including
the dump loop's model ordering: excludes are resolved, the app list is
built (raising the `--pks` `CommandError` for zero app labels, for more
than one app label, and for an undotted label), the serialization format
is checked against the registered public formats, and finally
`sort_dependencies` orders the selected models.  `.ok` returns the
ordered model list that the dump loop would then serialize; every
`.error` is raised before any record is written. -/
def gitversions_handle (env : DumpEnv) (app_labels : List String)
    (format : String) (pks : Option String) (excludes : List String) :
    Except CmdErr (List Model) :=
  match processExcludes env excludes with
  | .error e => .error e
  | .ok ex =>
    match dumpAppList env app_labels (primaryKeysOf pks) ex.1 with
    | .error e => .error e
    | .ok app_list =>
      if format ∈ env.publicFormats then
        match sort_dependencies env.nk
            (((app_list.map fun p => p.2.getD p.1.appModels).flatten).map
              env.descOf) with
        | .error msg => .error (.cycle msg)
        | .ok ordered => .ok ordered
      else .error (.unknownFormat format)

/- ### Concrete fixtures used by the witnesses and counterexamples -/

/-- Model `app.A`. -/
def modelA : Model := ⟨"app", "A"⟩

/-- Model `app.B`. -/
def modelB : Model := ⟨"app", "B"⟩

/-- Every model has a `natural_key`. -/
def nkTrue : Model → Bool := fun _ => true

/-- The cyclic scenario `{A: deps=[B], B: deps=[A]}`. -/
def descsAB : List ModelDesc :=
  [⟨modelA, [modelB], [], []⟩, ⟨modelB, [modelA], [], []⟩]

/-- The acyclic scenario `{A: deps=[B], B: deps=[]}`. -/
def descsChain : List ModelDesc :=
  [⟨modelA, [modelB], [], []⟩, ⟨modelB, [], [], []⟩]

/-- Decode oracle: every fixture deserializes to no objects. -/
def decodeOkEmpty : Nat → String → DecodeOutcome := fun _ _ => .ok []

/-- The `with` block raises `TransactionManagementError` on every pass. -/
def tmeAlways : Nat → Bool := fun _ => true

/-- No `TransactionManagementError` is ever raised. -/
def tmeNever : Nat → Bool := fun _ => false

/-- The router allows every model. -/
def allowAll : SavedObj → Bool := fun _ => true

/-- Every save succeeds. -/
def saveOk : Nat → SavedObj → SaveResult := fun _ _ => .ok

/-- Every save fails with the same database error. -/
def saveFail : Nat → SavedObj → SaveResult := fun _ _ => .dbError "deadlock"

/-- A sample object of model `auth.User` with primary key 7. -/
def objUser : SavedObj := ⟨"auth", "User", "7"⟩

/-- The router rejects every model. -/
def allowNone : SavedObj → Bool := fun _ => false

/-- A one-app registry (`app` with models `A` and `B`) for the dump
command witnesses. -/
def acMain : AppConfig := ⟨"app", true, [modelA, modelB]⟩

/-- Dump environment over `acMain` with public formats `xml` and
`json`. -/
def envW : DumpEnv :=
  { appConfigs := [acMain],
    publicFormats := ["xml", "json"],
    getAppConfig := fun s => if s = "app" then some acMain else none,
    getModelByLabel := fun s =>
      if s = "app.A" then some modelA
      else if s = "app.B" then some modelB else none,
    configGetModel := fun ac s =>
      if ac = acMain && s = "A" then some modelA
      else if ac = acMain && s = "B" then some modelB else none,
    nk := nkTrue,
    descOf := fun m => ⟨m, [], [], []⟩ }

/- ### Theorems about `save_all` (claims C3, C4, C9) -/

theorem save_all_le_max (allow : SavedObj → Bool)
    (save : Nat → SavedObj → SaveResult) :
    ∀ (n : Nat) (objects : List SavedObj) (iterations : Nat),
      25 ≤ iterations + n →
      save_all allow save objects iterations ≤ max iterations 25 := by
  intro n
  induction n with
  | zero =>
    intro objects iterations h
    rw [save_all]
    simp only [Nat.add_zero] at h
    rw [dif_pos (Or.inr h)]
    exact Nat.le_max_left _ _
  | succ n ih =>
    intro objects iterations h
    rw [save_all]
    by_cases h0 : objects.length = 0 ∨ 25 ≤ iterations
    · rw [dif_pos h0]; exact Nat.le_max_left _ _
    · rw [dif_neg h0]
      push_neg at h0
      show (if 0 < (save_all_pass allow save iterations objects).skiped.length
          then save_all allow save
            ((save_all_pass allow save iterations objects).skiped.map Prod.fst)
            (iterations + 1)
          else iterations) ≤ max iterations 25
      split
      · have hrec := ih
          ((save_all_pass allow save iterations objects).skiped.map Prod.fst)
          (iterations + 1) (by omega)
        have hmax : max (iterations + 1) 25 = 25 := Nat.max_eq_right (by omega)
        rw [hmax] at hrec
        exact le_trans hrec (Nat.le_max_right _ _)
      · exact Nat.le_max_left _ _

/-- C3: `save_all` always terminates and, started at or below the cap,
the iteration count it returns never exceeds 25; it returns the current
count unchanged as soon as the object list is empty or the counter has
reached the cap.  (In the source, termination holds because every
recursive call increments `iterations`, which the guard bounds by 25;
the embedding makes that the termination measure.) -/
theorem save_all_terminates_capped (allow : SavedObj → Bool)
    (save : Nat → SavedObj → SaveResult) (objects : List SavedObj)
    (iterations : Nat) (h : iterations ≤ 25) :
    save_all allow save objects iterations ≤ 25 ∧
      (objects = [] → save_all allow save objects iterations = iterations) ∧
      (iterations = 25 → save_all allow save objects iterations = iterations) := by
  refine ⟨?_, ?_, ?_⟩
  · have hm := save_all_le_max allow save 25 objects iterations (by omega)
    rwa [Nat.max_eq_right h] at hm
  · intro h0
    rw [save_all, dif_pos (Or.inl (by simp [h0]))]
  · intro h25
    rw [save_all, dif_pos (Or.inr (by omega))]

/-- Witness for C3 at a concrete input: one routable object whose save
always fails; starting from iteration 0 the result stays within the
cap of 25. -/
theorem save_all_terminates_capped_witness :
    (0 ≤ 25) ∧ save_all allowAll saveFail [objUser] 0 ≤ 25 :=
  ⟨by decide,
    (save_all_terminates_capped allowAll saveFail [objUser] 0 (by decide)).1⟩

/-- C4: a record whose save fails with a `DatabaseError`/`IntegrityError`
is not raised out of `save_all`: it lands in the `skiped` retry set
together with the enriched message
`Could not load <app_label>.<object_name>(pk=<pk>): <error>`; and while
below the cap `save_all` recurses on exactly that retry set with the
iteration counter incremented. -/
theorem save_all_retries_db_errors (allow : SavedObj → Bool)
    (save : Nat → SavedObj → SaveResult) (it : Nat) (objs : List SavedObj)
    (o : SavedObj) (msg : String) (ho : o ∈ objs) (ha : allow o = true)
    (hf : save it o = .dbError msg) :
    (o, errMsg o msg) ∈ (save_all_pass allow save it objs).skiped ∧
      o ∈ (save_all_pass allow save it objs).skiped.map Prod.fst ∧
      (objs.length ≠ 0 → it < 25 →
        save_all allow save objs it =
          if 0 < (save_all_pass allow save it objs).skiped.length then
            save_all allow save
              ((save_all_pass allow save it objs).skiped.map Prod.fst) (it + 1)
          else it) := by
  have hmem : (o, errMsg o msg) ∈ (save_all_pass allow save it objs).skiped := by
    induction objs with
    | nil => cases ho
    | cons x rest ih =>
      rcases List.mem_cons.mp ho with hx | hx
      · subst hx
        simp only [save_all_pass, ha, if_pos, hf]
        exact List.mem_cons_self _ _
      · have hr := ih hx
        simp only [save_all_pass]
        by_cases hax : allow x
        · simp only [hax, if_pos]
          cases hsx : save it x with
          | ok => exact hr
          | dbError m => exact List.mem_cons_of_mem _ hr
        · simp only [hax, if_neg, Bool.not_eq_true]
          exact hr
  refine ⟨hmem, List.mem_map.mpr ⟨(o, errMsg o msg), hmem, rfl⟩, ?_⟩
  intro hne hlt
  rw [save_all, dif_neg (by push_neg; exact ⟨hne, by omega⟩)]

/-- Witness for C4 at a concrete input: the failing `auth.User` object
ends up in the retry set with the fully rendered enriched message. -/
theorem save_all_retries_db_errors_witness :
    objUser ∈ [objUser] ∧ allowAll objUser = true ∧
      (objUser, "Could not load auth.User(pk=7): deadlock") ∈
        (save_all_pass allowAll saveFail 0 [objUser]).skiped :=
  ⟨by simp, rfl,
    (save_all_retries_db_errors allowAll saveFail 0 [objUser] objUser "deadlock"
      (by simp) rfl rfl).1⟩

/-- C9: a record the routing policy rejects is silently dropped by the
`save_all` pass: no save is attempted on it (it is not among the
attempted objects) and it is not collected into the retry set either —
it reaches no terminal bucket. -/
theorem save_all_drops_unroutable (allow : SavedObj → Bool)
    (save : Nat → SavedObj → SaveResult) (it : Nat) (objs : List SavedObj)
    (o : SavedObj) (ha : allow o = false) :
    o ∉ (save_all_pass allow save it objs).attempted ∧
      ∀ m, (o, m) ∉ (save_all_pass allow save it objs).skiped := by
  induction objs with
  | nil =>
    simp [save_all_pass]
  | cons x rest ih =>
    simp only [save_all_pass]
    by_cases hax : allow x
    · have hne : o ≠ x := by
        intro he; subst he; rw [ha] at hax; exact Bool.false_ne_true hax
      simp only [hax, if_pos]
      cases hsx : save it x with
      | ok =>
        refine ⟨?_, ?_⟩
        · intro hmem
          rcases List.mem_cons.mp hmem with he | hm
          · exact hne he
          · exact ih.1 hm
        · exact ih.2
      | dbError m =>
        refine ⟨?_, ?_⟩
        · intro hmem
          rcases List.mem_cons.mp hmem with he | hm
          · exact hne he
          · exact ih.1 hm
        · intro m' hmem
          rcases List.mem_cons.mp hmem with he | hm
          · exact hne (congrArg Prod.fst he)
          · exact ih.2 m' hm
    · simp only [hax, if_neg, Bool.not_eq_true]
      exact ih

/-- Witness for C9 at a concrete input: with a router that rejects
everything, the object is neither attempted nor put in the retry set. -/
theorem save_all_drops_unroutable_witness :
    allowNone objUser = false ∧
      objUser ∉ (save_all_pass allowNone saveOk 0 [objUser]).attempted :=
  ⟨rfl, (save_all_drops_unroutable allowNone saveOk 0 [objUser] objUser rfl).1⟩

/- ### Theorems about the restore ingest loops (claims C5, C6, C7) -/

theorem splitAlt_length_sum {α : Type} :
    ∀ l : List α, (splitAlt l).1.length + (splitAlt l).2.length = l.length
  | [] => rfl
  | x :: xs => by
    simp only [splitAlt, List.length_cons]
    have := splitAlt_length_sum xs
    omega

theorem splitAlt_fst_length_pos {α : Type} (l : List α) (h : l ≠ []) :
    0 < (splitAlt l).1.length := by
  cases l with
  | nil => cases h rfl
  | cons x xs => simp [splitAlt]

/-- C5 counterexample: with one unit in the batch and a
`TransactionManagementError` on every pass (the `except` branch of
gitrestore.py lines 128-130 re-queues the processed paths), the loop is
still running after 5 passes with the batch size unchanged: there is no
no-progress check and no hard stop at the unit count (here 1). -/
theorem restore_loop_no_hard_stop_counterexample :
    (restore_loop decodeOkEmpty tmeAlways 5
        { unloaded := ["u"], processed := [], skiped := [], reallySkiped := [],
          objects := [], missingFks := none, i := 0,
          hookConnected := false }).i = 5 ∧
      (restore_loop decodeOkEmpty tmeAlways 5
        { unloaded := ["u"], processed := [], skiped := [], reallySkiped := [],
          objects := [], missingFks := none, i := 0,
          hookConnected := false }).unloaded = ["u"] ∧
      ¬ (restore_loop decodeOkEmpty tmeAlways 5
        { unloaded := ["u"], processed := [], skiped := [], reallySkiped := [],
          objects := [], missingFks := none, i := 0,
          hookConnected := false }).i ≤ (["u"] : List String).length := by
  refine ⟨rfl, rfl, by decide⟩

/-- C5 amended: the outer ingest loop has no no-progress check and no
hard stop; instead, whenever no `TransactionManagementError` occurs,
each pass removes every unit it visits (Python's skip-on-remove
iteration leaves the units at odd positions), so the batch shrinks
strictly, the loop terminates, and the number of passes never exceeds
the unit count.  (Under repeated transaction errors it can run
unboundedly, see the counterexample.) -/
theorem restore_loop_terminates_without_tme
    (decode : Nat → String → DecodeOutcome) (tme : Nat → Bool)
    (htme : ∀ k, tme k = false) :
    ∀ (fuel : Nat) (s : HState), s.unloaded.length + 1 ≤ fuel →
      (restore_loop decode tme fuel s).unloaded = [] ∧
      (restore_loop decode tme fuel s).i ≤ s.i + s.unloaded.length := by
  intro fuel
  induction fuel with
  | zero => intro s h; omega
  | succ fuel ih =>
    intro s h
    by_cases hu : s.unloaded.isEmpty
    · have he : s.unloaded = [] := List.isEmpty_iff.mp hu
      simp only [restore_loop, hu, if_pos]
      simp [he]
    · have hne : s.unloaded ≠ [] := by
        intro he; exact hu (List.isEmpty_iff.mpr he)
      have hsum := splitAlt_length_sum s.unloaded
      have hpos := splitAlt_fst_length_pos s.unloaded hne
      simp only [restore_loop, hu, if_neg, Bool.not_eq_true, htme s.i]
      have hrec := ih
        { s with unloaded := (splitAlt s.unloaded).2,
                 processed := s.processed ++
                   (loaddata_pass (decode s.i) (splitAlt s.unloaded).1).processed,
                 skiped := s.skiped ++
                   (loaddata_pass (decode s.i) (splitAlt s.unloaded).1).skiped,
                 objects := s.objects ++
                   (loaddata_pass (decode s.i) (splitAlt s.unloaded).1).objects,
                 missingFks :=
                   some (loaddata_pass (decode s.i) (splitAlt s.unloaded).1).missingFks,
                 i := s.i + 1 }
        (by simp only []; omega)
      refine ⟨hrec.1, ?_⟩
      have := hrec.2
      simp only [] at this
      omega

/-- Witness for C5's amended theorem at a concrete input: three units,
no transaction errors, fuel 4; the loop drains the batch within 3
passes. -/
theorem restore_loop_terminates_without_tme_witness :
    (∀ k, tmeNever k = false) ∧
      (restore_loop decodeOkEmpty tmeNever 4
          { unloaded := ["a", "b", "c"], processed := [], skiped := [],
            reallySkiped := [], objects := [], missingFks := none, i := 0,
            hookConnected := false }).unloaded = [] ∧
      (restore_loop decodeOkEmpty tmeNever 4
          { unloaded := ["a", "b", "c"], processed := [], skiped := [],
            reallySkiped := [], objects := [], missingFks := none, i := 0,
            hookConnected := false }).i ≤ 0 + 3 :=
  ⟨fun _ => rfl,
    (restore_loop_terminates_without_tme decodeOkEmpty tmeNever (fun _ => rfl) 4
      { unloaded := ["a", "b", "c"], processed := [], skiped := [],
        reallySkiped := [], objects := [], missingFks := none, i := 0,
        hookConnected := false } (by decide)).1,
    (restore_loop_terminates_without_tme decodeOkEmpty tmeNever (fun _ => rfl) 4
      { unloaded := ["a", "b", "c"], processed := [], skiped := [],
        reallySkiped := [], objects := [], missingFks := none, i := 0,
        hookConnected := false } (by decide)).2⟩

/-- C6: running the restore on an already-empty batch.  The ingest loop
body never executes, so `i` stays 0 and — this is the latent bug the
spec flags — `missing_fks` is never assigned (`missingFks = none`):
line 134 (`save_all(missing_fks, self.using)`) then raises `NameError`
instead of reporting zero iterations over an empty set. -/
theorem gitrestore_empty_batch_name_error
    (decode : Nat → String → DecodeOutcome) (tme : Nat → Bool)
    (allow : SavedObj → Bool) (save : Nat → SavedObj → SaveResult)
    (fuel : Nat) :
    gitrestore_handle decode tme allow save fuel [] =
      ({ unloaded := [], processed := [], skiped := [], reallySkiped := [],
         objects := [], missingFks := none, i := 0, hookConnected := false },
       some .nameError) := by
  have hloop : ∀ (f : Nat) (s : HState), s.unloaded = [] →
      restore_loop decode tme f s = s := by
    intro f
    cases f with
    | zero => intro s _; rfl
    | succ f =>
      intro s hs
      simp only [restore_loop, hs, List.isEmpty_nil, if_pos]
  unfold gitrestore_handle
  dsimp only
  rw [hloop fuel _ rfl]
  rfl

theorem restore_loop_hook (decode : Nat → String → DecodeOutcome)
    (tme : Nat → Bool) :
    ∀ (fuel : Nat) (s : HState),
      (restore_loop decode tme fuel s).hookConnected = s.hookConnected := by
  intro fuel
  induction fuel with
  | zero => intro s; rfl
  | succ fuel ih =>
    intro s
    by_cases hu : s.unloaded.isEmpty
    · simp only [restore_loop, hu, if_pos]
    · by_cases ht : tme s.i
      · simp only [restore_loop, hu, if_neg, Bool.not_eq_true, ht, if_pos, ih]
      · simp only [restore_loop, hu, if_neg, Bool.not_eq_true, ht, ih]

theorem restore_retry_loop_hook (decode : Nat → String → DecodeOutcome)
    (tme : Nat → Bool) :
    ∀ (fuel : Nat) (s : HState),
      (restore_retry_loop decode tme fuel s).1.hookConnected
        = s.hookConnected := by
  intro fuel
  induction fuel with
  | zero => intro s; rfl
  | succ fuel ih =>
    intro s
    by_cases hu : s.skiped.isEmpty
    · simp only [restore_retry_loop, hu, if_pos]
    · by_cases ht : tme s.i
      · simp only [restore_retry_loop, hu, if_neg, Bool.not_eq_true, ht, if_pos]
      · simp only [restore_retry_loop, hu, if_neg, Bool.not_eq_true, ht, ih]

/-- C7 amended: the `gitversion` post-save hook is disconnected before
the first pass, but it is reconnected exactly on the successful
completion exit (gitrestore.py line 163 is straight-line code, not a
`finally`): the hook ends up connected if and only if `handle` exits
without an error.  In particular every save performed during the
restore happens while the hook is disconnected. -/
theorem gitrestore_hook_reconnected_iff_success
    (decode : Nat → String → DecodeOutcome) (tme : Nat → Bool)
    (allow : SavedObj → Bool) (save : Nat → SavedObj → SaveResult)
    (fuel : Nat) (batch : List String) :
    ((gitrestore_handle decode tme allow save fuel batch).1.hookConnected = true)
      ↔ (gitrestore_handle decode tme allow save fuel batch).2 = none := by
  have h1 : (restore_loop decode tme fuel
      { unloaded := batch, processed := [], skiped := [], reallySkiped := [],
        objects := [], missingFks := none, i := 0,
        hookConnected := false }).hookConnected = false :=
    restore_loop_hook decode tme fuel _
  have h2 : ∀ s : HState, s.hookConnected = false →
      (restore_retry_loop decode tme fuel s).1.hookConnected = false := by
    intro s hs
    rw [restore_retry_loop_hook decode tme fuel s, hs]
  unfold gitrestore_handle
  dsimp only
  split
  · simp [h1]
  · split
    · simp [h1]
    · split
      · simp [h2 _ h1]
      · split
        · simp [h2 _ h1]
        · simp

/-- C7 counterexample: the empty-batch `NameError` exit is a failure
path on which the hook is NOT reconnected, refuting "resumed on every
exit path including failure". -/
theorem gitrestore_hook_left_disconnected_counterexample :
    (gitrestore_handle decodeOkEmpty tmeNever allowAll saveOk 1 []).2 =
        some .nameError ∧
      (gitrestore_handle decodeOkEmpty tmeNever allowAll saveOk 1
        []).1.hookConnected = false :=
  ⟨rfl, rfl⟩

/- ### Theorems about the dump command validation (claim C10) -/

theorem buildAppList_ok_labels_qualified (env : DumpEnv) (pk : List String)
    (excl : List AppConfig) (hpk : pk ≠ []) :
    ∀ (labels : List String) (acc res : List (AppConfig × Option (List Model))),
      buildAppList env pk excl labels acc = .ok res →
      ∀ l ∈ labels, (splitLabel l).length = 2 := by
  intro labels
  induction labels with
  | nil => intro acc res _ l hl; cases hl
  | cons label rest ih =>
    intro acc res h l hl
    rcases List.mem_cons.mp hl with rfl | hmem
    · by_contra hlen
      rcases hsl : splitLabel l with _ | ⟨x, _ | ⟨y, _ | ⟨z, tl⟩⟩⟩
      · simp only [buildAppList, hsl, if_pos hpk] at h
        exact Except.noConfusion h
      · simp only [buildAppList, hsl, if_pos hpk] at h
        exact Except.noConfusion h
      · rw [hsl] at hlen; exact hlen rfl
      · simp only [buildAppList, hsl, if_pos hpk] at h
        exact Except.noConfusion h
    · rcases hsl : splitLabel label with _ | ⟨x, _ | ⟨y, _ | ⟨z, tl⟩⟩⟩
      · simp only [buildAppList, hsl, if_pos hpk] at h
        exact Except.noConfusion h
      · simp only [buildAppList, hsl, if_pos hpk] at h
        exact Except.noConfusion h
      · simp only [buildAppList, hsl] at h
        cases hga : env.getAppConfig x with
        | none =>
          simp only [hga] at h
          exact Except.noConfusion h
        | some ac =>
          simp only [hga] at h
          split at h
          · exact ih acc res h l hmem
          · cases hgm : env.configGetModel ac y with
            | none =>
              simp only [hgm] at h
              exact Except.noConfusion h
            | some m =>
              simp only [hgm] at h
              exact ih _ res h l hmem
      · simp only [buildAppList, hsl, if_pos hpk] at h
        exact Except.noConfusion h

theorem dumpAppList_ok_shape (env : DumpEnv) (app_labels : List String)
    (pk : List String) (excl : List AppConfig)
    (res : List (AppConfig × Option (List Model)))
    (h : dumpAppList env app_labels pk excl = .ok res) (hpk : pk ≠ []) :
    app_labels ≠ [] ∧ ¬ 1 < app_labels.length ∧
      ∀ l ∈ app_labels, (splitLabel l).length = 2 := by
  unfold dumpAppList at h
  by_cases h0 : app_labels.length = 0
  · rw [if_pos h0, if_pos hpk] at h; cases h
  · rw [if_neg h0] at h
    by_cases h1 : 1 < app_labels.length ∧ pk ≠ []
    · rw [if_pos h1] at h; cases h
    · rw [if_neg h1] at h
      refine ⟨?_, ?_,
        buildAppList_ok_labels_qualified env pk excl hpk app_labels [] res h⟩
      · intro he; exact h0 (by simp [he])
      · intro hgt; exact h1 ⟨hgt, hpk⟩

theorem gitversions_handle_ok_checks (env : DumpEnv) (app_labels : List String)
    (format : String) (pks : Option String) (excludes : List String)
    (ordered : List Model)
    (h : gitversions_handle env app_labels format pks excludes = .ok ordered) :
    format ∈ env.publicFormats ∧
      (primaryKeysOf pks ≠ [] →
        app_labels ≠ [] ∧ ¬ 1 < app_labels.length ∧
          ∀ l ∈ app_labels, (splitLabel l).length = 2) := by
  unfold gitversions_handle at h
  cases hpe : processExcludes env excludes with
  | error e =>
    simp only [hpe] at h
    exact Except.noConfusion h
  | ok ex =>
    simp only [hpe] at h
    cases hal : dumpAppList env app_labels (primaryKeysOf pks) ex.1 with
    | error e =>
      simp only [hal] at h
      exact Except.noConfusion h
    | ok app_list =>
      simp only [hal] at h
      by_cases hf : format ∈ env.publicFormats
      · exact ⟨hf, fun hpk =>
          dumpAppList_ok_shape env app_labels _ ex.1 app_list hal hpk⟩
      · rw [if_neg hf] at h; cases h

/-- C10: the dump command fails with a `CommandError` before writing any
record when the requested serialization format is not registered, or
when a primary-key filter is combined with anything other than exactly
one dotted `app_label.ModelName` selector (zero app labels, several app
labels, or an app label without a model qualifier).  An `.error` result
means the dump loop was never reached, so nothing is dumped. -/
theorem gitversions_handle_fails_fast (env : DumpEnv) (app_labels : List String)
    (format : String) (pks : Option String) (excludes : List String)
    (h : format ∉ env.publicFormats ∨
      (primaryKeysOf pks ≠ [] ∧
        (app_labels = [] ∨ 1 < app_labels.length ∨
          ∃ l ∈ app_labels, (splitLabel l).length ≠ 2))) :
    ∃ e, gitversions_handle env app_labels format pks excludes = .error e := by
  cases hres : gitversions_handle env app_labels format pks excludes with
  | error e => exact ⟨e, rfl⟩
  | ok v =>
    exfalso
    have hc := gitversions_handle_ok_checks env app_labels format pks excludes v hres
    rcases h with hfmt | ⟨hpk, hlab⟩
    · exact hfmt hc.1
    · have hsh := hc.2 hpk
      rcases hlab with he | hgt | ⟨l, hl, hlen⟩
      · exact hsh.1 he
      · exact hsh.2.1 hgt
      · exact hlen (hsh.2.2 l hl)

/-- Witness for C10 at a concrete input: format `yaml` is not among the
registered public formats of `envW`, so the dump command fails before
dumping anything. -/
theorem gitversions_handle_fails_fast_witness :
    ("yaml" ∉ envW.publicFormats) ∧
      ∃ e, gitversions_handle envW ["app.A"] "yaml" none [] = .error e :=
  ⟨by decide,
    gitversions_handle_fails_fast envW ["app.A"] "yaml" none []
      (Or.inl (by decide))⟩

/- ### Theorems about `sort_dependencies` (claims C1, C2, C8) -/

theorem Ordered_promote {orig : List (Model × List Model)} {M ml : List Model}
    {m : Model} {deps : List Model}
    (hnd : (orig.map Prod.fst).Nodup) (horig : (m, deps) ∈ orig)
    (hOrd : Ordered orig M ml) (hdeps : deps.all (depOk M ml) = true) :
    Ordered orig M (ml ++ [m]) := by
  intro p hp hmem d hd hdM
  rcases List.mem_append.mp hmem with hml | hm
  · exact (hOrd p hp hml d hd hdM).trans (List.sublist_append_left ml [m])
  · have hpm : p.1 = m := by simpa using hm
    have hpeq : p = (m, deps) := List.inj_on_of_nodup_map hnd hp horig hpm
    subst hpeq
    have hdok := List.all_eq_true.mp hdeps d hd
    have hdml : d ∈ ml := by
      rcases Bool.or_eq_true_iff.mp hdok with hno | hyes
      · exfalso
        rw [Bool.not_eq_true'] at hno
        exact (of_decide_eq_false hno) hdM
      · exact of_decide_eq_true hyes
    exact List.Sublist.append (List.singleton_sublist.mpr hdml)
      (List.Sublist.refl [m])

theorem innerScan_spec (orig : List (Model × List Model)) (M : List Model)
    (hnd : (orig.map Prod.fst).Nodup) :
    ∀ (l : List (Model × List Model)) (ml : List Model),
      (∀ p ∈ l, p ∈ orig) → Ordered orig M ml →
      (∀ p ∈ (innerScan M ml l).2, p ∈ l) ∧
        ((innerScan M ml l).1 ++ (innerScan M ml l).2.map Prod.fst).Perm
          (l.map Prod.fst) ∧
        Ordered orig M (ml ++ (innerScan M ml l).1) := by
  intro l
  induction l with
  | nil =>
    intro ml _ hOrd
    refine ⟨by simp [innerScan], by simp [innerScan], ?_⟩
    simpa [innerScan] using hOrd
  | cons p rest ih =>
    intro ml hsub hOrd
    obtain ⟨m, deps⟩ := p
    by_cases hall : deps.all (depOk M ml) = true
    · have hOrd' : Ordered orig M (ml ++ [m]) :=
        Ordered_promote hnd (hsub _ (List.mem_cons_self _ _)) hOrd hall
      have hr := ih (ml ++ [m])
        (fun q hq => hsub q (List.mem_cons_of_mem _ hq)) hOrd'
      simp only [innerScan, hall, if_pos]
      refine ⟨?_, ?_, ?_⟩
      · intro q hq; exact List.mem_cons_of_mem _ (hr.1 q hq)
      · exact hr.2.1.cons m
      · have h2 : ml ++ m :: (innerScan M (ml ++ [m]) rest).1
            = (ml ++ [m]) ++ (innerScan M (ml ++ [m]) rest).1 := by simp
        rw [h2]
        exact hr.2.2
    · have hr := ih ml (fun q hq => hsub q (List.mem_cons_of_mem _ hq)) hOrd
      simp only [innerScan, hall, if_neg, Bool.not_eq_true]
      refine ⟨?_, ?_, hr.2.2⟩
      · intro q hq
        rcases List.mem_cons.mp hq with rfl | hq'
        · exact List.mem_cons_self _ _
        · exact List.mem_cons_of_mem _ (hr.1 q hq')
      · exact List.perm_middle.trans (hr.2.1.cons m)

theorem innerScan_stuck (M : List Model) :
    ∀ (l : List (Model × List Model)) (ml : List Model),
      (innerScan M ml l).1 = [] →
      (innerScan M ml l).2 = l ∧
        ∀ p ∈ l, p.2.all (depOk M ml) = false := by
  intro l
  induction l with
  | nil => intro ml _; exact ⟨rfl, by simp⟩
  | cons p rest ih =>
    intro ml h1
    obtain ⟨m, deps⟩ := p
    by_cases hall : deps.all (depOk M ml) = true
    · exfalso
      simp only [innerScan, hall, if_pos] at h1
      exact List.noConfusion h1
    · simp only [innerScan, hall, if_neg, Bool.not_eq_true] at h1 ⊢
      have hrec := ih ml h1
      refine ⟨by rw [hrec.1], ?_⟩
      intro q hq
      rcases List.mem_cons.mp hq with rfl | hq'
      · exact Bool.eq_false_iff.mpr hall
      · exact hrec.2 q hq'

theorem exists_min_key {α : Type} (f : α → Nat) :
    ∀ (R : List α), R ≠ [] → ∃ p ∈ R, ∀ q ∈ R, f p ≤ f q := by
  intro R
  induction R with
  | nil => intro h; cases h rfl
  | cons x rest ih =>
    intro _
    cases rest with
    | nil => exact ⟨x, by simp, by simp⟩
    | cons y t =>
      obtain ⟨p, hp, hmin⟩ := ih (by simp)
      by_cases hxp : f x ≤ f p
      · refine ⟨x, by simp, ?_⟩
        intro q hq
        rcases List.mem_cons.mp hq with rfl | hq'
        · exact le_refl _
        · exact le_trans hxp (hmin q hq')
      · refine ⟨p, List.mem_cons_of_mem _ hp, ?_⟩
        intro q hq
        rcases List.mem_cons.mp hq with rfl | hq'
        · omega
        · exact hmin q hq'

theorem acyclic_has_source {pairs : List (Model × List Model)}
    (hac : Acyclic pairs) (R : List (Model × List Model)) (hne : R ≠ [])
    (hsub : ∀ p ∈ R, p ∈ pairs) :
    ∃ p ∈ R, ∀ d ∈ p.2, d ∉ R.map Prod.fst := by
  obtain ⟨rank, hrank⟩ := hac
  obtain ⟨p, hp, hmin⟩ := exists_min_key (fun q => rank q.1) R hne
  refine ⟨p, hp, ?_⟩
  intro d hd hdR
  obtain ⟨q, hq, hqd⟩ := List.mem_map.mp hdR
  have hdpairs : d ∈ pairs.map Prod.fst :=
    List.mem_map.mpr ⟨q, hsub q hq, hqd⟩
  have hlt := hrank p (hsub p hp) d hd hdpairs
  have hle := hmin q hq
  rw [hqd] at hle
  simp only [] at hle hlt
  omega

theorem sublist_pair_indexOf_lt {a b : Model} :
    ∀ {l : List Model}, List.Sublist [a, b] l → l.Nodup →
      l.indexOf a < l.indexOf b := by
  intro l
  induction l with
  | nil => intro h _; simp at h
  | cons x xs ih =>
    intro h hnd
    cases h with
    | cons _ h' =>
      have ha : a ∈ xs := h'.subset (by simp)
      have hb : b ∈ xs := h'.subset (by simp)
      have hxa : x ≠ a := by
        intro he; subst he; exact (List.nodup_cons.mp hnd).1 ha
      have hxb : x ≠ b := by
        intro he; subst he; exact (List.nodup_cons.mp hnd).1 hb
      rw [List.indexOf_cons_ne _ hxa, List.indexOf_cons_ne _ hxb]
      exact Nat.succ_lt_succ (ih h' (List.nodup_cons.mp hnd).2)
    | cons₂ _ h' =>
      have hb : b ∈ xs := h'.subset (by simp)
      have hab : a ≠ b := by
        intro he; subst he; exact (List.nodup_cons.mp hnd).1 hb
      rw [List.indexOf_cons_self, List.indexOf_cons_ne _ hab]
      exact Nat.succ_pos _

theorem outerLoop_main (orig : List (Model × List Model)) (M : List Model)
    (hM : M = orig.map Prod.fst) (hnd : (orig.map Prod.fst).Nodup) :
    ∀ (n : Nat) (md : List (Model × List Model)) (ml : List Model),
      md.length ≤ n →
      (∀ p ∈ md, p ∈ orig) →
      (ml ++ md.map Prod.fst).Perm (orig.map Prod.fst) →
      Ordered orig M ml →
      (∀ out, outerLoop M md ml = .ok out →
          out.Perm (orig.map Prod.fst) ∧ Ordered orig M out) ∧
        (∀ msg, outerLoop M md ml = .error msg →
          ∃ sk, sk ≠ [] ∧ (∀ p ∈ sk, p ∈ orig) ∧
            (∀ p ∈ sk, ∃ d ∈ p.2, d ∈ sk.map Prod.fst) ∧
            msg = cycleError sk) ∧
        (Acyclic orig → ∃ out, outerLoop M md ml = .ok out) := by
  intro n
  induction n with
  | zero =>
    intro md ml hlen hsub hperm hOrd
    have hmd : md = [] := List.eq_nil_of_length_eq_zero (Nat.le_zero.mp hlen)
    subst hmd
    have heq : outerLoop M [] ml = .ok ml := by
      rw [outerLoop]
      simp
    refine ⟨?_, ?_, ?_⟩
    · intro out hout
      rw [heq] at hout
      obtain rfl : ml = out := Except.ok.inj hout
      exact ⟨by simpa using hperm, hOrd⟩
    · intro msg hmsg
      rw [heq] at hmsg
      exact Except.noConfusion hmsg
    · intro _
      exact ⟨ml, heq⟩
  | succ n ih =>
    intro md ml hlen hsub hperm hOrd
    by_cases hmd : md.isEmpty = true
    · have hmdnil : md = [] := List.isEmpty_iff.mp hmd
      subst hmdnil
      have heq : outerLoop M [] ml = .ok ml := by
        rw [outerLoop]
        simp
      refine ⟨?_, ?_, ?_⟩
      · intro out hout
        rw [heq] at hout
        obtain rfl : ml = out := Except.ok.inj hout
        exact ⟨by simpa using hperm, hOrd⟩
      · intro msg hmsg
        rw [heq] at hmsg
        exact Except.noConfusion hmsg
      · intro _
        exact ⟨ml, heq⟩
    · have hmdne : md ≠ [] := by
        intro he; rw [he] at hmd; exact hmd rfl
      have hsubrev : ∀ p ∈ md.reverse, p ∈ orig := fun p hp =>
        hsub p (List.mem_reverse.mp hp)
      have hspec := innerScan_spec orig M hnd md.reverse ml hsubrev hOrd
      have hrevperm : ((md.reverse).map Prod.fst).Perm (md.map Prod.fst) := by
        rw [List.map_reverse]
        exact List.reverse_perm _
      have heq : outerLoop M md ml =
          if (innerScan M ml md.reverse).1.isEmpty then
            Except.error (cycleError (innerScan M ml md.reverse).2)
          else outerLoop M (innerScan M ml md.reverse).2
            (ml ++ (innerScan M ml md.reverse).1) := by
        conv_lhs => rw [outerLoop]
        rw [dif_neg hmd]
        rfl
      by_cases hstuck : (innerScan M ml md.reverse).1.isEmpty = true
      · -- a full pass promoted nothing: the cycle error is raised
        have hstuck' : (innerScan M ml md.reverse).1 = [] :=
          List.isEmpty_iff.mp hstuck
        have hsk := innerScan_stuck M md.reverse ml hstuck'
        rw [if_pos hstuck] at heq
        have hblocked : ∀ p ∈ (innerScan M ml md.reverse).2,
            ∃ d ∈ p.2, d ∈ ((innerScan M ml md.reverse).2).map Prod.fst := by
          rw [hsk.1]
          intro p hp
          have hfail := hsk.2 p (by exact hp)
          obtain ⟨d, hd, hdOk⟩ := List.all_eq_false.mp hfail
          refine ⟨d, hd, ?_⟩
          rw [Bool.not_eq_true] at hdOk
          unfold depOk at hdOk
          rcases Bool.or_eq_false_iff.mp hdOk with ⟨hin, hnotml⟩
          have hdM : d ∈ M := by
            rw [Bool.not_eq_false'] at hin
            exact of_decide_eq_true hin
          have hdnotml : d ∉ ml := of_decide_eq_false hnotml
          have hdmem : d ∈ ml ++ md.map Prod.fst := by
            rw [hM] at hdM
            exact hperm.mem_iff.mpr hdM
          rcases List.mem_append.mp hdmem with hc | hc
          · exact absurd hc hdnotml
          · rw [List.map_reverse]
            exact List.mem_reverse.mpr hc
        refine ⟨?_, ?_, ?_⟩
        · intro out hout
          rw [heq] at hout
          exact Except.noConfusion hout
        · intro msg hmsg
          rw [heq] at hmsg
          refine ⟨(innerScan M ml md.reverse).2, ?_, ?_, hblocked, ?_⟩
          · rw [hsk.1]
            intro he
            exact hmdne (by simpa using congrArg List.reverse he)
          · intro p hp
            exact hsubrev p (hspec.1 p hp)
          · exact (Except.error.inj hmsg).symm
        · intro hac
          exfalso
          obtain ⟨p, hp, hnone⟩ := acyclic_has_source hac
            ((innerScan M ml md.reverse).2)
            (by
              rw [hsk.1]
              intro he
              exact hmdne (by simpa using congrArg List.reverse he))
            (fun p hp => hsubrev p (hspec.1 p hp))
          obtain ⟨d, hd, hdin⟩ := hblocked p hp
          exact hnone d hd hdin
      · -- at least one model was promoted: recurse
        rw [if_neg hstuck] at heq
        have hperm' : (((ml ++ (innerScan M ml md.reverse).1) ++
            ((innerScan M ml md.reverse).2).map Prod.fst)).Perm
              (orig.map Prod.fst) := by
          rw [List.append_assoc]
          refine List.Perm.trans (List.Perm.append_left ml hspec.2.1) ?_
          exact List.Perm.trans (List.Perm.append_left ml hrevperm) hperm
        have hlen' : ((innerScan M ml md.reverse).2).length ≤ n := by
          have hl := hspec.2.1.length_eq
          simp only [List.length_append, List.length_map,
            List.length_reverse] at hl
          have hpos : 0 < ((innerScan M ml md.reverse).1).length := by
            rcases Nat.eq_zero_or_pos ((innerScan M ml md.reverse).1).length
              with h0 | h0
            · exact absurd (List.isEmpty_iff.mpr
                (List.eq_nil_of_length_eq_zero h0)) hstuck
            · exact h0
          omega
        have hsub' : ∀ p ∈ (innerScan M ml md.reverse).2, p ∈ orig :=
          fun p hp => hsubrev p (hspec.1 p hp)
        have hrec := ih ((innerScan M ml md.reverse).2)
          (ml ++ (innerScan M ml md.reverse).1) hlen' hsub' hperm' hspec.2.2
        refine ⟨?_, ?_, ?_⟩
        · intro out hout
          rw [heq] at hout
          exact hrec.1 out hout
        · intro msg hmsg
          rw [heq] at hmsg
          exact hrec.2.1 msg hmsg
        · intro hac
          obtain ⟨out, hout⟩ := hrec.2.2 hac
          exact ⟨out, by rw [heq]; exact hout⟩

theorem sort_props (nk : Model → Bool) (descs : List ModelDesc)
    (hnd : (descs.map ModelDesc.self).Nodup) :
    (∀ out, sort_dependencies nk descs = .ok out →
        out.Perm (descs.map ModelDesc.self) ∧
          Ordered (descs.map fun d => (d.self, buildModelDeps nk d))
            (descs.map ModelDesc.self) out) ∧
      (∀ msg, sort_dependencies nk descs = .error msg →
        ∃ sk, sk ≠ [] ∧
          (∀ p ∈ sk, p ∈ descs.map fun d => (d.self, buildModelDeps nk d)) ∧
          (∀ p ∈ sk, ∃ d ∈ p.2, d ∈ sk.map Prod.fst) ∧ msg = cycleError sk) ∧
      (Acyclic (descs.map fun d => (d.self, buildModelDeps nk d)) →
        ∃ out, sort_dependencies nk descs = .ok out) := by
  have hM : descs.map ModelDesc.self =
      (descs.map fun d => (d.self, buildModelDeps nk d)).map Prod.fst := by
    rw [List.map_map]
    rfl
  have hnd' :
      ((descs.map fun d => (d.self, buildModelDeps nk d)).map Prod.fst).Nodup := by
    rw [← hM]; exact hnd
  have hmain := outerLoop_main (descs.map fun d => (d.self, buildModelDeps nk d))
    (descs.map ModelDesc.self) hM hnd'
    ((descs.map fun d => (d.self, buildModelDeps nk d)).reverse.length)
    ((descs.map fun d => (d.self, buildModelDeps nk d)).reverse) []
    (le_refl _)
    (fun p hp => List.mem_reverse.mp hp)
    (by
      simp only [List.nil_append, List.map_reverse]
      rw [← hM]
      exact (List.reverse_perm _).trans (by rw [hM]))
    (by intro p _ hmem; simp at hmem)
  have hdef : sort_dependencies nk descs
      = outerLoop (descs.map ModelDesc.self)
          ((descs.map fun d => (d.self, buildModelDeps nk d)).reverse) [] := rfl
  refine ⟨?_, ?_, ?_⟩
  · intro out hout
    have h := hmain.1 out (by rw [← hdef]; exact hout)
    exact ⟨by rw [hM]; exact h.1, h.2⟩
  · intro msg hmsg
    exact hmain.2.1 msg (by rw [← hdef]; exact hmsg)
  · intro hac
    obtain ⟨out, h⟩ := hmain.2.2 hac
    exact ⟨out, by rw [hdef]; exact h⟩

theorem sort_ok_acyclic (nk : Model → Bool) (descs : List ModelDesc)
    (hnd : (descs.map ModelDesc.self).Nodup) (out : List Model)
    (hok : sort_dependencies nk descs = .ok out) :
    Acyclic (descs.map fun d => (d.self, buildModelDeps nk d)) := by
  have hprops := (sort_props nk descs hnd).1 out hok
  have hM : descs.map ModelDesc.self =
      (descs.map fun d => (d.self, buildModelDeps nk d)).map Prod.fst := by
    rw [List.map_map]
    rfl
  have hndout : out.Nodup := hprops.1.symm.nodup hnd
  refine ⟨fun m => out.indexOf m, ?_⟩
  intro p hp d hd hdfst
  have hp1 : p.1 ∈ out := by
    apply hprops.1.mem_iff.mpr
    rw [hM]
    exact List.mem_map.mpr ⟨p, hp, rfl⟩
  have hdM : d ∈ descs.map ModelDesc.self := by rw [hM]; exact hdfst
  have hsubl : List.Sublist [d, p.1] out := hprops.2 p hp hp1 d hd hdM
  exact sublist_pair_indexOf_lt hsubl hndout

/-- C1: for every acyclic dependency graph over the selected model set
(acyclic meaning the in-set dependency edges admit a topological
ranking; edges to models outside the set are unconstrained),
`sort_dependencies` succeeds and returns a permutation of the input
models in which every dependency that belongs to the input set precedes
its dependent.  The second conjunct states the external-dependency rule
directly on the source's promotion test: a dependency outside the model
set always satisfies `depOk`, so it never blocks promotion. -/
theorem sort_dependencies_acyclic_correct (nk : Model → Bool)
    (descs : List ModelDesc) (hnd : (descs.map ModelDesc.self).Nodup)
    (hac : Acyclic (descs.map fun d => (d.self, buildModelDeps nk d))) :
    (∃ out, sort_dependencies nk descs = .ok out ∧
        out.Perm (descs.map ModelDesc.self) ∧
        ∀ de ∈ descs, ∀ dep ∈ buildModelDeps nk de,
          dep ∈ descs.map ModelDesc.self →
          List.Sublist [dep, de.self] out) ∧
      ∀ (d : Model) (ml : List Model), d ∉ descs.map ModelDesc.self →
        depOk (descs.map ModelDesc.self) ml d = true := by
  refine ⟨?_, ?_⟩
  · obtain ⟨out, hout⟩ := (sort_props nk descs hnd).2.2 hac
    have hprops := (sort_props nk descs hnd).1 out hout
    refine ⟨out, hout, hprops.1, ?_⟩
    intro de hde dep hdep hdepM
    have hpair : (de.self, buildModelDeps nk de) ∈
        descs.map fun d => (d.self, buildModelDeps nk d) :=
      List.mem_map.mpr ⟨de, hde, rfl⟩
    have hm : de.self ∈ out :=
      hprops.1.mem_iff.mpr (List.mem_map.mpr ⟨de, hde, rfl⟩)
    exact hprops.2 _ hpair hm dep hdep hdepM
  · intro d ml hd
    simp [depOk, hd]

/-- Witness for C1 at a concrete input: the acyclic scenario
`{A: deps=[B], B: deps=[]}` with the ranking B ↦ 0, A ↦ 1. -/
theorem sort_dependencies_acyclic_correct_witness :
    (descsChain.map ModelDesc.self).Nodup ∧
      ∃ out, sort_dependencies nkTrue descsChain = .ok out ∧
        out.Perm (descsChain.map ModelDesc.self) ∧
        ∀ de ∈ descsChain, ∀ dep ∈ buildModelDeps nkTrue de,
          dep ∈ descsChain.map ModelDesc.self →
          List.Sublist [dep, de.self] out :=
  ⟨by decide,
    (sort_dependencies_acyclic_correct nkTrue descsChain (by decide)
      ⟨fun m => if m = modelB then 0 else 1, by decide⟩).1⟩

/-- C2: `sort_dependencies` fails exactly when the in-set dependency
graph admits no topological ranking — equivalently, when some full scan
pass promotes nothing while pairs remain, the source's only failure
condition.  On failure the raised message is the cycle `CommandError`
naming the remaining unresolved pair set (each member of which is
blocked by a dependency inside that very set), rendered sorted by model
class name for determinism.  The final conjunct is the concrete
scenario `{A: deps=[B], B: deps=[A]}`, which fails with exactly the
message naming `app.A, app.B` in sorted order. -/
theorem sort_dependencies_cycle_spec :
    (∀ (nk : Model → Bool) (descs : List ModelDesc),
        (descs.map ModelDesc.self).Nodup →
        ((∃ msg, sort_dependencies nk descs = .error msg) ↔
            ¬ Acyclic (descs.map fun d => (d.self, buildModelDeps nk d))) ∧
          (∀ msg, sort_dependencies nk descs = .error msg →
            ∃ sk, sk ≠ [] ∧
              (∀ p ∈ sk, p ∈ descs.map fun d => (d.self, buildModelDeps nk d)) ∧
              (∀ p ∈ sk, ∃ d ∈ p.2, d ∈ sk.map Prod.fst) ∧
              msg = cycleError sk)) ∧
      sort_dependencies nkTrue descsAB = .error
        "Can\x27t resolve dependencies for app.A, app.B in serialized app list." := by
  constructor
  · intro nk descs hnd
    constructor
    · constructor
      · rintro ⟨msg, hmsg⟩ hac
        obtain ⟨out, hout⟩ := (sort_props nk descs hnd).2.2 hac
        rw [hout] at hmsg
        exact Except.noConfusion hmsg
      · intro hnac
        cases hres : sort_dependencies nk descs with
        | error msg => exact ⟨msg, rfl⟩
        | ok out => exact absurd (sort_ok_acyclic nk descs hnd out hres) hnac
    · exact (sort_props nk descs hnd).2.1
  · show outerLoop [modelA, modelB] [(modelB, [modelA]), (modelA, [modelB])] [] = _
    rw [outerLoop]
    rw [dif_neg (by decide)]
    have hscan : innerScan [modelA, modelB] []
        ([(modelB, [modelA]), (modelA, [modelB])].reverse)
        = ([], [(modelA, [modelB]), (modelB, [modelA])]) := by decide
    rw [hscan]
    rw [dif_pos (by decide)]
    exact congrArg Except.error (by decide)

/-- Witness for C2 at the concrete cyclic scenario: the two-model set is
duplicate-free, the graph `{A → B, B → A}` admits no ranking, and the
theorem yields the failure. -/
theorem sort_dependencies_cycle_spec_witness :
    (descsAB.map ModelDesc.self).Nodup ∧
      ∃ msg, sort_dependencies nkTrue descsAB = .error msg :=
  ⟨by decide,
    ((sort_dependencies_cycle_spec.1 nkTrue descsAB (by decide)).1).mpr
      (by
        rintro ⟨rank, hrank⟩
        have h1 := hrank (modelA, [modelB]) (by decide) modelB (by decide)
          (by decide)
        have h2 := hrank (modelB, [modelA]) (by decide) modelA (by decide)
          (by decide)
        dsimp only at h1 h2
        omega)⟩

/-- C8 counterexample: a model that declares ITSELF among its
natural-key dependencies keeps that self-edge — the source filters
self-references only from relation-derived (FK/M2M) edges
(gitversions.py lines 205, 209), never from the declared dependency
list (lines 193-196).  This refutes "the model itself is never one of
its own dependency edges". -/
theorem buildModelDeps_self_edge_counterexample :
    modelA ∈ buildModelDeps nkTrue ⟨modelA, [modelA], [], []⟩ := by decide

/-- C8 amended: membership characterization of the dependency list built
by `sort_dependencies`.  A model's dependencies are exactly (a) its
declared natural-key dependencies taken verbatim — which may include the
model itself — provided the model has a natural key, together with (b)
the foreign-key and many-to-many relation targets that themselves expose
a natural key and are not the model itself.  A relation target without
natural-key support is never added. -/
theorem buildModelDeps_mem (nk : Model → Bool) (de : ModelDesc) (x : Model) :
    x ∈ buildModelDeps nk de ↔
      ((nk de.self = true ∧ x ∈ de.declaredDeps) ∨
        ((some x ∈ de.fieldRelTargets ∨ x ∈ de.m2mTargets) ∧
          nk x = true ∧ x ≠ de.self)) := by
  unfold buildModelDeps
  constructor
  · intro hx
    rcases List.mem_append.mp hx with h12 | h3
    · rcases List.mem_append.mp h12 with h1 | h2
      · by_cases hnk : nk de.self
        · rw [if_pos hnk] at h1
          exact Or.inl ⟨hnk, h1⟩
        · rw [if_neg hnk] at h1
          cases h1
      · obtain ⟨ot, hot, hfx⟩ := List.mem_filterMap.mp h2
        cases ot with
        | none => cases hfx
        | some t =>
          rw [Option.some_bind] at hfx
          by_cases hc : nk t && decide (t ≠ de.self)
          · rw [if_pos hc] at hfx
            obtain rfl : t = x := Option.some.inj hfx
            rw [Bool.and_eq_true] at hc
            exact Or.inr ⟨Or.inl hot, hc.1, of_decide_eq_true hc.2⟩
          · rw [if_neg hc] at hfx
            cases hfx
    · obtain ⟨t, hot, hfx⟩ := List.mem_filterMap.mp h3
      by_cases hc : nk t && decide (t ≠ de.self)
      · rw [if_pos hc] at hfx
        obtain rfl : t = x := Option.some.inj hfx
        rw [Bool.and_eq_true] at hc
        exact Or.inr ⟨Or.inr hot, hc.1, of_decide_eq_true hc.2⟩
      · rw [if_neg hc] at hfx
        cases hfx
  · intro h
    rcases h with ⟨hnk, hdecl⟩ | ⟨hrel, hnkx, hne⟩
    · refine List.mem_append.mpr (Or.inl (List.mem_append.mpr (Or.inl ?_)))
      rw [if_pos hnk]
      exact hdecl
    · have hcond : (nk x && decide (x ≠ de.self)) = true := by
        rw [Bool.and_eq_true]
        exact ⟨hnkx, decide_eq_true hne⟩
      rcases hrel with hf | hm
      · refine List.mem_append.mpr (Or.inl (List.mem_append.mpr (Or.inr ?_)))
        refine List.mem_filterMap.mpr ⟨some x, hf, ?_⟩
        rw [Option.some_bind, if_pos hcond]
      · refine List.mem_append.mpr (Or.inr ?_)
        refine List.mem_filterMap.mpr ⟨x, hm, ?_⟩
        rw [if_pos hcond]

end DjangoGitversions
